import Mathlib

/-!
Verification development for the short-Weierstrass curve templates, the
Pedersen CRH/commitment parameter layer, the Pedersen CRH R1CS gadget and
the Fiat-Shamir sponge gadget of the snarkVM core.

The Rust templates are generic over a field `F` (coordinates) and a group
`G` (Pedersen bases); the shallow embedding mirrors this with a Lean
`Field F` (field `inverse` returning the none-variant on zero is `finv`)
and an additive commutative group `G`.
-/

namespace SnarkVM

section Curves

variable (F : Type) [Field F] [DecidableEq F]

/-- Affine short-Weierstrass point: `GroupAffine { x, y, infinity }` from
`short_weierstrass_jacobian.rs` / `short_weierstrass_projective.rs`. -/
structure SWAffine where
  x : F
  y : F
  infinity : Bool
deriving DecidableEq, Repr

/-- Projective / Jacobian short-Weierstrass point: `GroupProjective { x, y, z }`
from the two short-Weierstrass template files. -/
structure SWProj where
  x : F
  y : F
  z : F
deriving DecidableEq, Repr

variable {F}

/-- Affine zero: `GroupAffine::zero() = (0, 1, infinity = true)` (both templates). -/
def affineZero : SWAffine F := ⟨0, 1, true⟩

/-- Projective zero: `GroupProjective::zero() = (0, 1, 0)`; the point at
infinity is always represented by `Z = 0` (both templates). -/
def projZero : SWProj F := ⟨0, 1, 0⟩

/-- Field inversion as in the Rust `Field::inverse`: returns the none-variant
exactly on zero. -/
def finv (a : F) : Option F := if a = 0 then none else some a⁻¹

/-- Embedding of `<GroupAffine<P> as FromBytes>::read` from
`short_weierstrass_jacobian.rs` lines 284-296 (the projective template,
lines 280-293, has character-identical code).  The base-field and bool
byte parsing is abstracted away: the function receives the already-decoded
coordinates `x`, `y` and the `infinity` flag and performs the template's
consistency check
`if infinity != x.is_zero() && y.is_one() { return Err(InvalidData) }`,
which by Rust operator precedence is `(infinity != x.is_zero()) && y.is_one()`. -/
def groupAffineRead (x y : F) (infinity : Bool) : Except Unit (SWAffine F) :=
  if (infinity != decide (x = 0)) && decide (y = 1) then Except.error ()
  else Except.ok ⟨x, y, infinity⟩

/-- Embedding of `<GroupProjective<P> as PartialEq>::eq` from
`short_weierstrass_jacobian.rs` lines 340-358 (Jacobian coordinates). -/
def jacEq (p q : SWProj F) : Bool :=
  if p.z = 0 then decide (q.z = 0)
  else if q.z = 0 then false
  else
    let z1 := p.z * p.z
    let z2 := q.z * q.z
    !(decide (p.x * z2 ≠ q.x * z1) || decide (p.y * (z2 * q.z) ≠ q.y * (z1 * p.z)))

/-- Embedding of `<GroupProjective<P> as PartialEq>::eq` from
`short_weierstrass_projective.rs` lines 337-350 (projective coordinates). -/
def projEq (p q : SWProj F) : Bool :=
  if p.z = 0 then decide (q.z = 0)
  else if q.z = 0 then false
  else decide (p.x * q.z = q.x * p.z) && decide (p.y * q.z = q.y * p.z)

/-- Embedding of `From<GroupAffine<P>> for GroupProjective<P>` from
`short_weierstrass_jacobian.rs` lines 822-831: the affine point `(X, Y)` is
represented in Jacobian coordinates with `Z = 1`; affine zero maps to
projective zero. -/
def jacFromAffine (p : SWAffine F) : SWProj F :=
  if p.infinity then projZero else ⟨p.x, p.y, 1⟩

/-- Embedding of `From<GroupAffine<P>> for GroupProjective<P>` from
`short_weierstrass_projective.rs` lines 699-707 (same structure as the
Jacobian template). -/
def projFromAffine (p : SWAffine F) : SWProj F :=
  if p.infinity then projZero else ⟨p.x, p.y, 1⟩

/-- Embedding of `From<GroupProjective<P>> for GroupAffine<P>` from
`short_weierstrass_jacobian.rs` lines 833-857: `Z = 0` maps to affine zero,
`Z = 1` is already normalized, otherwise `(X/Z^2, Y/Z^3)` via the (guaranteed
non-failing) inverse of `Z`. -/
def jacIntoAffine (p : SWProj F) : SWAffine F :=
  if p.z = 0 then affineZero
  else if p.z = 1 then ⟨p.x, p.y, false⟩
  else
    let zinv := p.z⁻¹
    let zinvSquared := zinv * zinv
    ⟨p.x * zinvSquared, p.y * (zinvSquared * zinv), false⟩

/-- Embedding of `From<GroupProjective<P>> for GroupAffine<P>` from
`short_weierstrass_projective.rs` lines 709-726: `Z = 0` maps to affine zero,
`Z = 1` is already normalized, otherwise `(X/Z, Y/Z)`. -/
def projIntoAffine (p : SWProj F) : SWAffine F :=
  if p.z = 0 then affineZero
  else if p.z = 1 then ⟨p.x, p.y, false⟩
  else
    let zinv := p.z⁻¹
    ⟨p.x * zinv, p.y * zinv, false⟩

/-- Embedding of `GroupProjective::is_normalized` (both templates):
`self.is_zero() || self.z.is_one()`. -/
def isNormalized (p : SWProj F) : Bool :=
  decide (p.z = 0) || decide (p.z = 1)

/-- The `Z`-coordinates of the non-normalized elements of a slice, in order;
these are exactly the elements visited by the filtered passes of
`batch_normalization`. -/
def nnzs (v : List (SWProj F)) : List F :=
  (v.filter (fun g => !isNormalized g)).map (fun g => g.z)

/-- First pass of `GroupProjective::batch_normalization` (both templates):
over the non-normalized elements, accumulate `tmp := tmp * g.z` and push each
running product; returns the pushed products together with the final `tmp`. -/
def batchNormPass1 : List (SWProj F) → F → List F × F
  | [], tmp => ([], tmp)
  | g :: rest, tmp =>
    if isNormalized g then batchNormPass1 rest tmp
    else
      let t := tmp * g.z
      let r := batchNormPass1 rest t
      (t :: r.1, r.2)

/-- Second pass of `batch_normalization`, acting on the reversed slice: each
non-normalized element `g` consumes the next `s` from `svals` and is updated by
`newtmp := tmp * g.z; g.z := tmp * s; tmp := newtmp`; when `svals` is exhausted
the `zip` ends and the remaining elements are left unchanged. -/
def batchNormPass2Rev : List (SWProj F) → F → List F → List (SWProj F)
  | [], _, _ => []
  | g :: rest, tmp, svals =>
    if isNormalized g then g :: batchNormPass2Rev rest tmp svals
    else
      match svals with
      | [] => g :: rest
      | s :: svals2 => ⟨g.x, g.y, tmp * s⟩ :: batchNormPass2Rev rest (tmp * g.z) svals2

/-- Third pass of the Jacobian `batch_normalization` on one element (skipping
normalized ones): `z2 = z^2; x *= z2; y *= z2 * z; z = 1`. -/
def pass3JacStep (g : SWProj F) : SWProj F :=
  if isNormalized g then g
  else
    let z2 := g.z * g.z
    ⟨g.x * z2, g.y * (z2 * g.z), 1⟩

/-- Third pass of the projective `batch_normalization` on one element
(skipping normalized ones): `x *= z; y *= z; z = 1`. -/
def pass3ProjStep (g : SWProj F) : SWProj F :=
  if isNormalized g then g
  else ⟨g.x * g.z, g.y * g.z, 1⟩

/-- Embedding of `GroupProjective::batch_normalization` from
`short_weierstrass_jacobian.rs` lines 437-499: running products of the
non-normalized `Z`s, one inversion (`unwrap` modelled as the none-variant of
the result), a backward pass distributing inverses, then the per-element
affine transformation `(X, Y, Z) <- (X*Z^-2, Y*Z^-3, 1)`. -/
def batchNormalizationJac (v : List (SWProj F)) : Option (List (SWProj F)) :=
  match finv (batchNormPass1 v 1).2 with
  | none => none
  | some t =>
    some (((batchNormPass2Rev v.reverse t
      ((batchNormPass1 v 1).1.reverse.drop 1 ++ [1])).reverse).map pass3JacStep)

/-- Embedding of `GroupProjective::batch_normalization` from
`short_weierstrass_projective.rs` lines 427-474: identical to the Jacobian
version except for the final affine transformation
`(X, Y, Z) <- (X*Z^-1, Y*Z^-1, 1)`. -/
def batchNormalizationProj (v : List (SWProj F)) : Option (List (SWProj F)) :=
  match finv (batchNormPass1 v 1).2 with
  | none => none
  | some t =>
    some (((batchNormPass2Rev v.reverse t
      ((batchNormPass1 v 1).1.reverse.drop 1 ++ [1])).reverse).map pass3ProjStep)

/-- Running products `[tmp*a0, tmp*a0*a1, ...]`; reference shape of the first
pass of `batch_normalization` restricted to the non-normalized `Z`s. -/
def prefixProds : F → List F → List F
  | _, [] => []
  | tmp, a :: as0 =>
    (tmp * a) :: prefixProds (tmp * a) as0

/-- Products of the strict suffixes: `mkSvals [a0, ..., ak] = [a1*...*ak, ..., ak, 1]`.
This is the order in which the backward pass consumes its `s` values. -/
def mkSvals : List F → List F
  | [] => []
  | _ :: as0 => as0.prod :: mkSvals as0

/-- Net effect of the Jacobian `batch_normalization` on one element:
normalized elements are untouched, the others become
`(X*Z^-2, Y*Z^-3, 1)`. -/
def jacNormalizeStep (g : SWProj F) : SWProj F :=
  if isNormalized g then g
  else ⟨g.x * (g.z⁻¹ * g.z⁻¹), g.y * (g.z⁻¹ * g.z⁻¹ * g.z⁻¹), 1⟩

/-- Net effect of the projective `batch_normalization` on one element:
normalized elements are untouched, the others become `(X*Z^-1, Y*Z^-1, 1)`. -/
def projNormalizeStep (g : SWProj F) : SWProj F :=
  if isNormalized g then g
  else ⟨g.x * g.z⁻¹, g.y * g.z⁻¹, 1⟩

end Curves

section Pedersen

variable {G : Type} [AddCommGroup G]

/-- Embedding of `PedersenCRHParameters::base` (`pedersen_parameters.rs`
lines 58-66) and the identical `PedersenCommitmentParameters::base`
(`commitment/pedersen_parameters.rs` lines 52-60): push the current base and
double in place, `num_powers` times, starting from the random draw `g`. -/
def pedersenBaseRow : ℕ → G → List G
  | 0, _ => []
  | n + 1, g => g :: pedersenBaseRow n (g + g)

/-- Embedding of `PedersenCRHParameters::setup` (`pedersen_parameters.rs`
lines 41-47): one base row per window, each from a fresh random draw.  The
randomness source is modelled as the stream of group elements `rng` that the
successive `G::rand` calls return. -/
def pedersenCRHSetup (numWindows windowSize : ℕ) (rng : ℕ → G) : List (List G) :=
  (List.range numWindows).map fun i => pedersenBaseRow windowSize (rng i)

/-- Embedding of `PedersenCommitmentParameters::setup`
(`commitment/pedersen_parameters.rs` lines 38-50): the window rows as in the
CRH setup, then one additional `random_base` row from the next draw. -/
def pedersenCommitmentSetup (numWindows windowSize : ℕ) (rng : ℕ → G) :
    List (List G) × List G :=
  ((List.range numWindows).map fun i => pedersenBaseRow windowSize (rng i),
   pedersenBaseRow windowSize (rng numWindows))

end Pedersen

section ParamSerialization

/-- Token alphabet of the Pedersen parameter byte format: the writer emits
little-endian `u32` words and group-element encodings; the reader consumes
them in the same order.  The group element codec itself is the `ToBytes` /
`FromBytes` instance of the type parameter `G` of `PedersenCRHParameters` and
is abstracted into one token. -/
inductive PTok (G : Type) where
  | u32 (n : ℕ)
  | elem (g : G)
deriving DecidableEq, Repr

/-- Embedding of `<PedersenCRHParameters as ToBytes>::write`
(`pedersen_parameters.rs` lines 69-81): `bases.len() as u32`, then per row
`row.len() as u32` followed by the row's elements.  The `as u32` casts
truncate modulo `2^32`. -/
def writePedersenParams {G : Type} (bases : List (List G)) : List (PTok G) :=
  PTok.u32 (bases.length % 2 ^ 32) ::
    bases.flatMap fun row => PTok.u32 (row.length % 2 ^ 32) :: row.map PTok.elem

/-- Reader loop for one base row (`pedersen_parameters.rs` lines 93-96):
read exactly `n` group elements. -/
def readRowTokens {G : Type} : ℕ → List (PTok G) → Option (List G × List (PTok G))
  | 0, toks => some ([], toks)
  | n + 1, PTok.elem g :: toks =>
    (readRowTokens n toks).map fun rt => (g :: rt.1, rt.2)
  | _ + 1, _ => none

/-- Reader loop for the outer vector (`pedersen_parameters.rs` lines 89-98):
read `n` times a `u32` row length followed by that many group elements. -/
def readRowsTokens {G : Type} : ℕ → List (PTok G) → Option (List (List G) × List (PTok G))
  | 0, toks => some ([], toks)
  | n + 1, PTok.u32 len :: toks =>
    match readRowTokens len toks with
    | none => none
    | some rt =>
      match readRowsTokens n rt.2 with
      | none => none
      | some rts => some (rt.1 :: rts.1, rts.2)
  | _ + 1, _ => none

/-- Embedding of `<PedersenCRHParameters as FromBytes>::read`
(`pedersen_parameters.rs` lines 83-105): read a `u32` row count, then that
many rows. -/
def readPedersenParams {G : Type} (toks : List (PTok G)) :
    Option (List (List G) × List (PTok G)) :=
  match toks with
  | PTok.u32 n :: rest => readRowsTokens n rest
  | _ => none

end ParamSerialization

section CRHGadget

variable {G : Type} [AddCommGroup G]

/-- Synthesis-time failures of the embedded gadgets: the explicit
`SynthesisError::Unsatisfiable` return, and `assert!` macro failures
(which in Rust panic). -/
inductive GadgetError where
  | unsatisfiable
  | assertionFailed
deriving DecidableEq, Repr

/-- Little-endian bits of one byte, as produced by `UInt8::to_bits_le` on a
byte variable (8 booleans, least significant first). -/
def byteToBitsLE (b : ℕ) : List Bool :=
  (List.range 8).map fun i => b.testBit i

/-- Reassemble a byte value from little-endian bits. -/
def byteFromBitsLE (l : List Bool) : ℕ :=
  l.foldr (fun b acc => 2 * acc + (if b then 1 else 0)) 0

/-- Semantics of `Vec::resize(n, d)`: truncate when the vector is longer than
`n`, extend with copies of `d` when shorter. -/
def listResize {α : Type} (l : List α) (n : ℕ) (d : α) : List α :=
  l.take n ++ List.replicate (n - l.length) d

/-- Recursion core of `listChunks`, structurally recursive on a fuel argument
(instantiated with the list length, which bounds the number of chunks). -/
def listChunksGo {α : Type} (n : ℕ) : ℕ → List α → List (List α)
  | _, [] => []
  | 0, _ :: _ => []
  | fuel + 1, x :: xs =>
    if n = 0 then []
    else ((x :: xs).take n) :: listChunksGo n fuel ((x :: xs).drop n)

/-- Semantics of `slice::chunks(n)`: consecutive chunks of length `n`, the
last chunk possibly shorter.  (Rust panics on `n = 0`; the `n = 0` case is
never reached by the embedded callers.) -/
def listChunks {α : Type} (n : ℕ) (l : List α) : List (List α) :=
  listChunksGo n l.length l

/-- Recursion core of `chunksExact`, structurally recursive on a fuel
argument. -/
def chunksExactGo {α : Type} (n : ℕ) : ℕ → List α → List (List α)
  | _, [] => []
  | 0, _ :: _ => []
  | fuel + 1, x :: xs =>
    if n = 0 then []
    else if n ≤ (x :: xs).length then
      ((x :: xs).take n) :: chunksExactGo n fuel ((x :: xs).drop n)
    else []

/-- Semantics of `slice::chunks_exact(n)`: only the chunks of full length `n`,
any remainder is dropped. -/
def chunksExact {α : Type} (n : ℕ) (l : List α) : List (List α) :=
  chunksExactGo n l.length l

/-- Embedding of `pad_input_and_bitify` (`gadgets/src/algorithms/crh/pedersen.rs`
lines 102-107): `resize` the byte vector to `WINDOW_SIZE * NUM_WINDOWS / 8`
(zero-filling, or silently truncating a longer input), assert
`padded.len() * 8 == WINDOW_SIZE * NUM_WINDOWS`, then bitify little-endian
per byte. -/
def padInputAndBitify (numWindows windowSize : ℕ) (input : List ℕ) :
    Except GadgetError (List Bool) :=
  let padded := listResize input (windowSize * numWindows / 8) 0
  if padded.length * 8 ≠ windowSize * numWindows then Except.error GadgetError.assertionFailed
  else Except.ok (padded.flatMap byteToBitsLE)

/-- Modelled from the spec: one window of `GG::multi_scalar_multiplication`
(the group-gadget trait lives outside the selected sources) — the chunk's
bits select which precomputed multiples of the window's base row are summed,
`sum_j bit_j * bases[i][j]`. -/
def windowSum (row : List G) (bits : List Bool) : G :=
  ((bits.zip row).map fun p => if p.1 then p.2 else 0).sum

/-- Modelled from the spec: `GG::multi_scalar_multiplication` over all
windows — the sum of the per-window contributions. -/
def msm (bases : List (List G)) (chunks : List (List Bool)) : G :=
  ((chunks.zip bases).map fun p => windowSum p.2 p.1).sum

/-- Modelled from the spec: one window of
`GG::symmetric_multi_scalar_multiplication` — `H2` uses `g_i^(1-2*p_i)`,
i.e. adds the base when the bit is `0` and its inverse when the bit is `1`. -/
def symWindowSum (row : List G) (bits : List Bool) : G :=
  ((bits.zip row).map fun p => if p.1 then -p.2 else p.2).sum

/-- Modelled from the spec: `GG::symmetric_multi_scalar_multiplication`
over all windows. -/
def symmetricMsm (bases : List (List G)) (chunks : List (List Bool)) : G :=
  ((chunks.zip bases).map fun p => symWindowSum p.2 p.1).sum

/-- Modelled from the spec: one window of
`GG::masked_multi_scalar_multiplication` — each base `h_i` is replaced by
`h_i` if the mask bit `p_i = 0` and by `h_i^(-1)` if `p_i = 1`, and the
selector exponent is `m_i xor p_i`. -/
def maskedWindowSum (row : List G) (bits maskBits : List Bool) : G :=
  (((bits.zip maskBits).zip row).map fun p =>
    if p.1.1 != p.1.2 then (if p.1.2 then -p.2 else p.2) else 0).sum

/-- Modelled from the spec: `GG::masked_multi_scalar_multiplication` over all
windows, pairing input chunks with mask chunks and the primary base rows (the
independent mask bases enter through the symmetric hash term). -/
def maskedMsm (bases : List (List G)) (chunks : List (List Bool))
    (maskBases : List (List G)) (maskChunks : List (List Bool)) : G :=
  (((chunks.zip maskChunks).zip bases).map fun p => maskedWindowSum p.2 p.1.1 p.1.2).sum

/-- Embedding of `PedersenCRHGadget::check_evaluation_gadget`
(`gadgets/src/algorithms/crh/pedersen.rs` lines 89-99):
`assert_eq!(bases.len(), NUM_WINDOWS)`, pad-and-bitify the input, then the
windowed multi-scalar multiplication over `WINDOW_SIZE`-bit chunks. -/
def checkEvaluationGadget (numWindows windowSize : ℕ) (bases : List (List G))
    (input : List ℕ) : Except GadgetError G :=
  if bases.length ≠ numWindows then Except.error GadgetError.assertionFailed
  else
    match padInputAndBitify numWindows windowSize input with
    | Except.error e => Except.error e
    | Except.ok inputInBits => Except.ok (msm bases (listChunks windowSize inputInBits))

/-- Modelled from the spec: `MaskedCRHGadget::extend_mask` (the trait default
lives outside the selected sources) — each mask bit `p` becomes the two bits
`01` (if `p = 0`) or `10` (if `p = 1`), so each mask byte becomes two bytes;
the extended mask has twice the mask's length. -/
def extendMask (mask : List ℕ) : List ℕ :=
  mask.flatMap fun b =>
    let bits := (byteToBitsLE b).flatMap fun p => [p, !p]
    [byteFromBitsLE (bits.take 8), byteFromBitsLE (bits.drop 8)]

/-- Embedding of `PedersenCRHGadget::check_evaluation_gadget_masked`
(`gadgets/src/algorithms/crh/pedersen.rs` lines 121-160): reject with
`SynthesisError::Unsatisfiable` unless `input.len() == mask.len() * 2`;
otherwise extend the mask, hash the extended mask under the primary bases,
hash it symmetrically under the mask bases, assert the row count, and combine
the masked multi-scalar multiplication with the two mask hashes. -/
def checkEvaluationGadgetMasked (numWindows windowSize : ℕ)
    (bases maskBases : List (List G)) (input mask : List ℕ) :
    Except GadgetError G :=
  if input.length ≠ mask.length * 2 then Except.error GadgetError.unsatisfiable
  else
    match checkEvaluationGadget numWindows windowSize bases (extendMask mask) with
    | Except.error e => Except.error e
    | Except.ok maskHash =>
      match padInputAndBitify numWindows windowSize (extendMask mask) with
      | Except.error e => Except.error e
      | Except.ok maskInputInBits =>
        if bases.length ≠ numWindows then Except.error GadgetError.assertionFailed
        else
          match padInputAndBitify numWindows windowSize input with
          | Except.error e => Except.error e
          | Except.ok inputInBits =>
            match padInputAndBitify numWindows windowSize (extendMask mask) with
            | Except.error e => Except.error e
            | Except.ok maskInBits =>
              Except.ok
                (maskedMsm bases (listChunks windowSize inputInBits) maskBases
                    (listChunks windowSize maskInBits) +
                  maskHash +
                  symmetricMsm maskBases (listChunks windowSize maskInputInBits))

end CRHGadget

section FiatShamir

/-- Big-endian bit decomposition of width `s`, as returned by the field
gadget's `to_bits_be` (one bit per bit position of the native field size,
most significant first). -/
def toBitsBE (s x : ℕ) : List Bool :=
  (List.range s).map fun i => x.testBit (s - 1 - i)

/-- Modelled from the spec: the algebraic sponge gadget's `squeeze(n)` — the
sponge (whose Poseidon internals are outside the selected sources) is
abstracted as the stream `str` of native field elements it emits, with a
cursor; squeezing `n` elements returns the next `n` stream values and
advances the cursor by `n`. -/
def spongeSqueeze (str : ℕ → ℕ) (cursor n : ℕ) : List ℕ × ℕ :=
  ((List.range n).map fun i => str (cursor + i), cursor + n)

/-- Embedding of `FiatShamirAlgebraicSpongeRngVar::get_booleans_from_sponge`
(`fiat_shamir_constraints.rs` lines 166-183): squeeze
`(num_bits + bits_per_element - 1) / bits_per_element` elements where
`bits_per_element = CF::size_in_bits() - 1`, and for each squeezed element
append its big-endian bits with the highest bit discarded
(`elem_bits[1..]`). -/
def getBooleansFromSponge (sizeInBits : ℕ) (str : ℕ → ℕ) (cursor numBits : ℕ) :
    List Bool × ℕ :=
  let bitsPerElement := sizeInBits - 1
  let numElements := (numBits + bitsPerElement - 1) / bitsPerElement
  let sq := spongeSqueeze str cursor numElements
  (sq.1.flatMap fun e => (toBitsBE sizeInBits e).drop 1, sq.2)

/-- Embedding of the bit-harvesting skeleton of
`FiatShamirAlgebraicSpongeRngVar::get_gadgets_and_bits_from_sponge`
(`fiat_shamir_constraints.rs` lines 202-297): `num_bits_per_nonnative` is
`128` for short (128-bit) squeezes and `F::size_in_bits() - 1` otherwise;
`num_bits_per_nonnative * num_elements` bits are requested from
`get_booleans_from_sponge`, then regrouped by `chunks_exact` and reversed to
little-endian per non-native element.  (The limb reconstruction and the
constraint bookkeeping of the original return only allocation handles and are
not part of the bit-counting claim.) -/
def getGadgetsAndBitsFromSponge (sizeInBits nnSizeInBits : ℕ) (str : ℕ → ℕ)
    (cursor numElements : ℕ) (outputsShortElements : Bool) :
    List (List Bool) × ℕ :=
  let numBitsPerNonnative := if outputsShortElements then 128 else nnSizeInBits - 1
  let bl := getBooleansFromSponge sizeInBits str cursor (numBitsPerNonnative * numElements)
  ((chunksExact numBitsPerNonnative bl.1).map List.reverse, bl.2)

end FiatShamir

section WitnessInstances

/-- Concrete prime field used to instantiate witnesses. -/
instance factPrime13 : Fact (Nat.Prime 13) := ⟨by norm_num⟩

deriving instance DecidableEq for Except

end WitnessInstances

/-! Theorems. -/

section CurveTheorems

variable {F : Type} [Field F] [DecidableEq F]

theorem finv_eq_some {a b : F} : finv a = some b ↔ a ≠ 0 ∧ b = a⁻¹ := by
  unfold finv
  split_ifs with h
  · simp [h]
  · simp [h, eq_comm]

theorem jacEq_refl (p : SWProj F) : jacEq p p = true := by
  unfold jacEq
  by_cases h : p.z = 0 <;> simp [h]

theorem projEq_refl (p : SWProj F) : projEq p p = true := by
  unfold projEq
  by_cases h : p.z = 0 <;> simp [h]

/-- C6: the Jacobian `PartialEq::eq` returns true exactly when both points
have `Z = 0`, or both have nonzero `Z` and `X₁Z₂² = X₂Z₁²` and
`Y₁Z₂³ = Y₂Z₁³`; in particular a point with `Z = 0` is never equal to a
point with `Z ≠ 0`. -/
theorem jacEq_spec (F : Type) [Field F] [DecidableEq F] (p q : SWProj F) :
    jacEq p q = true ↔
      ((p.z = 0 ∧ q.z = 0) ∨
        (p.z ≠ 0 ∧ q.z ≠ 0 ∧
          p.x * q.z ^ 2 = q.x * p.z ^ 2 ∧ p.y * q.z ^ 3 = q.y * p.z ^ 3)) := by
  unfold jacEq
  by_cases hp : p.z = 0 <;> by_cases hq : q.z = 0 <;>
    simp [hp, hq]
  constructor
  · rintro ⟨h1, h2⟩
    exact ⟨by linear_combination h1, by linear_combination h2⟩
  · rintro ⟨h1, h2⟩
    exact ⟨by linear_combination h1, by linear_combination h2⟩

/-- C6 witness: `jacEq_spec` applied to two concrete representations of the
point at infinity and to two Jacobian representations of the same finite
point over the field with 13 elements. -/
theorem jacEq_spec_witness :
    jacEq (⟨1, 2, 0⟩ : SWProj (ZMod 13)) ⟨5, 7, 0⟩ = true ∧
    jacEq (⟨3, 5, 1⟩ : SWProj (ZMod 13)) ⟨12, 1, 2⟩ = true :=
  ⟨(jacEq_spec (ZMod 13) ⟨1, 2, 0⟩ ⟨5, 7, 0⟩).mpr (by decide),
   (jacEq_spec (ZMod 13) ⟨3, 5, 1⟩ ⟨12, 1, 2⟩).mpr (by decide)⟩

/-- C5: converting an affine point (satisfying the affine data-model
invariant that the infinity flag carries the canonical sentinel coordinates)
to projective/Jacobian coordinates and back is the identity; affine infinity
maps to `Z = 0`; `Z = 0` maps back to the affine zero sentinel
`(x = 0, y = 1, infinity = true)`; and a Jacobian point with `Z ≠ 0` maps to
`(X/Z², Y/Z³)` with `infinity = false`. -/
theorem affine_projective_roundtrip (F : Type) [Field F] [DecidableEq F] :
    (∀ P : SWAffine F, (P.infinity = true → P.x = 0 ∧ P.y = 1) →
      jacIntoAffine (jacFromAffine P) = P ∧ projIntoAffine (projFromAffine P) = P) ∧
    (∀ P : SWAffine F, P.infinity = true →
      (jacFromAffine P).z = 0 ∧ (projFromAffine P).z = 0) ∧
    (∀ p : SWProj F, p.z = 0 →
      jacIntoAffine p = ⟨0, 1, true⟩ ∧ projIntoAffine p = ⟨0, 1, true⟩) ∧
    (∀ p : SWProj F, p.z ≠ 0 →
      jacIntoAffine p = ⟨p.x / p.z ^ 2, p.y / p.z ^ 3, false⟩) := by
  refine ⟨?_, ?_, ?_, ?_⟩
  · intro P hP
    rcases P with ⟨x, y, inf⟩
    cases inf
    · constructor <;>
        simp [jacFromAffine, projFromAffine, jacIntoAffine, projIntoAffine,
          one_ne_zero]
    · obtain ⟨hx, hy⟩ := hP rfl
      subst hx; subst hy
      constructor <;>
        simp [jacFromAffine, projFromAffine, jacIntoAffine, projIntoAffine,
          projZero, affineZero]
  · intro P hP
    constructor <;> simp [jacFromAffine, projFromAffine, hP, projZero]
  · intro p hp
    constructor <;> simp [jacIntoAffine, projIntoAffine, hp, affineZero]
  · intro p hp
    unfold jacIntoAffine
    rw [if_neg hp]
    by_cases h1 : p.z = 1
    · simp [h1]
    · rw [if_neg h1]
      have hx : p.x / p.z ^ 2 = p.x * (p.z⁻¹ * p.z⁻¹) := by
        rw [div_eq_mul_inv]
        congr 1
        rw [pow_two, mul_inv]
      have hy : p.y / p.z ^ 3 = p.y * (p.z⁻¹ * p.z⁻¹ * p.z⁻¹) := by
        rw [div_eq_mul_inv]
        congr 1
        rw [show p.z ^ 3 = p.z * p.z * p.z by ring, mul_inv, mul_inv]
      rw [hx, hy]

/-- C5 witness: the four parts of `affine_projective_roundtrip` applied to
concrete points over the field with 13 elements. -/
theorem affine_projective_roundtrip_witness :
    (jacIntoAffine (jacFromAffine (⟨0, 1, true⟩ : SWAffine (ZMod 13))) = ⟨0, 1, true⟩ ∧
      projIntoAffine (projFromAffine (⟨0, 1, true⟩ : SWAffine (ZMod 13))) = ⟨0, 1, true⟩) ∧
    (jacIntoAffine (jacFromAffine (⟨3, 5, false⟩ : SWAffine (ZMod 13))) = ⟨3, 5, false⟩ ∧
      projIntoAffine (projFromAffine (⟨3, 5, false⟩ : SWAffine (ZMod 13))) = ⟨3, 5, false⟩) ∧
    ((jacFromAffine (⟨0, 1, true⟩ : SWAffine (ZMod 13))).z = 0 ∧
      (projFromAffine (⟨0, 1, true⟩ : SWAffine (ZMod 13))).z = 0) ∧
    (jacIntoAffine (⟨7, 2, 0⟩ : SWProj (ZMod 13)) = ⟨0, 1, true⟩ ∧
      projIntoAffine (⟨7, 2, 0⟩ : SWProj (ZMod 13)) = ⟨0, 1, true⟩) ∧
    jacIntoAffine (⟨1, 2, 1⟩ : SWProj (ZMod 13)) =
      ⟨(1 : ZMod 13) / 1 ^ 2, (2 : ZMod 13) / 1 ^ 3, false⟩ :=
  ⟨(affine_projective_roundtrip (ZMod 13)).1 ⟨0, 1, true⟩ (fun _ => by decide),
   (affine_projective_roundtrip (ZMod 13)).1 ⟨3, 5, false⟩ (by decide),
   (affine_projective_roundtrip (ZMod 13)).2.1 ⟨0, 1, true⟩ rfl,
   (affine_projective_roundtrip (ZMod 13)).2.2.1 ⟨7, 2, 0⟩ (by decide),
   (affine_projective_roundtrip (ZMod 13)).2.2.2 ⟨1, 2, 1⟩ (by decide)⟩

/-- C1: evaluation of the affine deserializer check at inputs with
`infinity = 1` and `(x, y) ≠ (0, 1)`.  The code ACCEPTS them (returning a
point instead of the invalid-data error the specification demands), because
the check `infinity != x.is_zero() && y.is_one()` parenthesizes as
`(infinity != x.is_zero()) && y.is_one()`: for `x = 0` the left conjunct is
false, and for `y ≠ 1` the right conjunct is false.  Only inputs with
`y = 1` and `infinity ≠ (x == 0)` are rejected. -/
theorem groupAffineRead_accepts_inconsistent_infinity :
    groupAffineRead (F := ZMod 13) 0 0 true = Except.ok ⟨0, 0, true⟩ ∧
    groupAffineRead (F := ZMod 13) 2 3 true = Except.ok ⟨2, 3, true⟩ ∧
    groupAffineRead (F := ZMod 13) 5 1 true = Except.error () := by
  refine ⟨by decide, by decide, by decide⟩

end CurveTheorems

section PedersenTheorems

theorem pedersenBaseRow_length {G : Type} [AddCommGroup G] :
    ∀ (w : ℕ) (g : G), (pedersenBaseRow w g).length = w := by
  intro w
  induction w with
  | zero => intro g; rfl
  | succ n ih => intro g; simp [pedersenBaseRow, ih]

theorem pedersenBaseRow_get {G : Type} [AddCommGroup G] :
    ∀ (w j : ℕ) (g : G), j < w → (pedersenBaseRow w g)[j]? = some ((2 ^ j) • g) := by
  intro w
  induction w with
  | zero => intro j g hj; omega
  | succ n ih =>
    intro j g hj
    cases j with
    | zero => simp [pedersenBaseRow]
    | succ m =>
      have hm : m < n := by omega
      simp only [pedersenBaseRow, List.getElem?_cons_succ]
      rw [ih m (g + g) hm]
      congr 1
      rw [← two_nsmul g, smul_smul, pow_succ]

/-- C4: `PedersenCRHParameters::setup` (and `PedersenCommitmentParameters::setup`)
produce exactly `NUM_WINDOWS` rows; window `i` is the tabulation of the `i`-th
random draw; every row produced by the shared `base` routine has length
exactly `WINDOW_SIZE`, its `j`-th entry is `2^j • G` for the row's initial
random element `G`, and each entry at index `j+1` is the group doubling of the
entry at index `j`.  The commitment setup shares the same rows and adds a
`random_base` row built the same way from the next draw. -/
theorem pedersen_setup_spec (G : Type) [AddCommGroup G]
    (numWindows windowSize : ℕ) (rng : ℕ → G) :
    (pedersenCRHSetup numWindows windowSize rng).length = numWindows ∧
    (∀ i, i < numWindows →
      (pedersenCRHSetup numWindows windowSize rng)[i]? =
        some (pedersenBaseRow windowSize (rng i))) ∧
    (∀ g : G, (pedersenBaseRow windowSize g).length = windowSize ∧
      (∀ j, j < windowSize → (pedersenBaseRow windowSize g)[j]? = some ((2 ^ j) • g)) ∧
      (∀ j, j + 1 < windowSize →
        (pedersenBaseRow windowSize g)[j + 1]? =
          ((pedersenBaseRow windowSize g)[j]?).map (fun x => x + x))) ∧
    (pedersenCommitmentSetup numWindows windowSize rng).1 =
      pedersenCRHSetup numWindows windowSize rng ∧
    (pedersenCommitmentSetup numWindows windowSize rng).2 =
      pedersenBaseRow windowSize (rng numWindows) := by
  refine ⟨?_, ?_, ?_, rfl, rfl⟩
  · simp [pedersenCRHSetup]
  · intro i hi
    simp [pedersenCRHSetup, List.getElem?_map, List.getElem?_range hi]
  · intro g
    refine ⟨pedersenBaseRow_length windowSize g, fun j hj => pedersenBaseRow_get windowSize j g hj, ?_⟩
    intro j hj
    rw [pedersenBaseRow_get windowSize (j + 1) g hj,
      pedersenBaseRow_get windowSize j g (by omega)]
    simp only [Option.map_some']
    congr 1
    rw [pow_succ, mul_comm (2 ^ j) 2, mul_smul, two_nsmul]

/-- C4 witness: the setup shape applied at `NUM_WINDOWS = 2`,
`WINDOW_SIZE = 3` over the integers with the randomness stream `i + 1`,
evaluated at window 1 and indices 1 and 2. -/
theorem pedersen_setup_spec_witness :
    (pedersenCRHSetup 2 3 (fun i => (i : ℤ) + 1)).length = 2 ∧
    (pedersenCRHSetup 2 3 (fun i => (i : ℤ) + 1))[1]? =
      some (pedersenBaseRow 3 ((1 : ℤ) + 1)) ∧
    (pedersenBaseRow 3 ((1 : ℤ) + 1)).length = 3 ∧
    (pedersenBaseRow 3 ((1 : ℤ) + 1))[1]? = some ((2 ^ 1) • ((1 : ℤ) + 1)) ∧
    (pedersenBaseRow 3 ((1 : ℤ) + 1))[2]? =
      ((pedersenBaseRow 3 ((1 : ℤ) + 1))[1]?).map (fun x => x + x) :=
  ⟨(pedersen_setup_spec ℤ 2 3 (fun i => (i : ℤ) + 1)).1,
   (pedersen_setup_spec ℤ 2 3 (fun i => (i : ℤ) + 1)).2.1 1 (by decide),
   ((pedersen_setup_spec ℤ 2 3 (fun i => (i : ℤ) + 1)).2.2.1 ((1 : ℤ) + 1)).1,
   ((pedersen_setup_spec ℤ 2 3 (fun i => (i : ℤ) + 1)).2.2.1 ((1 : ℤ) + 1)).2.1 1 (by decide),
   ((pedersen_setup_spec ℤ 2 3 (fun i => (i : ℤ) + 1)).2.2.1 ((1 : ℤ) + 1)).2.2 1 (by decide)⟩

end PedersenTheorems

section BatchNormTheorems

variable {F : Type} [Field F] [DecidableEq F]

theorem isNormalized_false_iff (g : SWProj F) :
    isNormalized g = false ↔ g.z ≠ 0 ∧ g.z ≠ 1 := by
  simp [isNormalized]

theorem nnzs_cons (g : SWProj F) (v : List (SWProj F)) :
    nnzs (g :: v) = if isNormalized g then nnzs v else g.z :: nnzs v := by
  by_cases h : isNormalized g <;> simp [nnzs, List.filter_cons, h]

theorem nnzs_reverse (v : List (SWProj F)) : nnzs v.reverse = (nnzs v).reverse := by
  unfold nnzs
  rw [List.filter_reverse, List.reverse_map]

theorem mem_nnzs_ne_zero (v : List (SWProj F)) (x : F) (hx : x ∈ nnzs v) : x ≠ 0 := by
  simp only [nnzs, List.mem_map, List.mem_filter] at hx
  obtain ⟨g, ⟨-, hg⟩, rfl⟩ := hx
  exact ((isNormalized_false_iff g).mp (by simpa using hg)).1

theorem batchNormPass1_snd (v : List (SWProj F)) :
    ∀ tmp : F, (batchNormPass1 v tmp).2 = tmp * (nnzs v).prod := by
  induction v with
  | nil => intro tmp; simp [batchNormPass1, nnzs]
  | cons g rest ih =>
    intro tmp
    by_cases h : isNormalized g
    · simp [batchNormPass1, h, nnzs_cons, ih]
    · simp [batchNormPass1, h, nnzs_cons, ih, mul_assoc]

theorem batchNormPass1_fst (v : List (SWProj F)) :
    ∀ tmp : F, (batchNormPass1 v tmp).1 = prefixProds tmp (nnzs v) := by
  induction v with
  | nil => intro tmp; simp [batchNormPass1, nnzs, prefixProds]
  | cons g rest ih =>
    intro tmp
    by_cases h : isNormalized g
    · simp [batchNormPass1, h, nnzs_cons, ih]
    · simp [batchNormPass1, h, nnzs_cons, ih, prefixProds]

theorem prefixProds_length (l : List F) :
    ∀ tmp : F, (prefixProds tmp l).length = l.length := by
  induction l with
  | nil => intro tmp; rfl
  | cons a as0 ih => intro tmp; simp [prefixProds, ih]

theorem prefixProds_eq_map (l : List F) :
    ∀ tmp : F, prefixProds tmp l = (prefixProds 1 l).map (fun x => tmp * x) := by
  induction l with
  | nil => intro tmp; rfl
  | cons a as0 ih =>
    intro tmp
    simp only [prefixProds, List.map_cons, one_mul]
    congr 1
    rw [ih (tmp * a), ih a, List.map_map]
    congr 1
    funext x
    simp [mul_assoc]

theorem mkSvals_append (xs : List F) (a : F) :
    mkSvals (xs ++ [a]) = (mkSvals xs).map (fun x => x * a) ++ [1] := by
  induction xs with
  | nil => simp [mkSvals]
  | cons x xs0 ih => simp [mkSvals, ih, List.prod_append]

theorem prefixProds_reverse_shift (l : List F) (hl : l ≠ []) :
    (prefixProds 1 l).reverse.drop 1 ++ [1] = mkSvals l.reverse := by
  induction l with
  | nil => exact absurd rfl hl
  | cons a as0 ih =>
    rcases as0 with _ | ⟨b, bs⟩
    · simp [prefixProds, mkSvals]
    · have has : (b :: bs : List F) ≠ [] := by simp
      have hmul : (fun x : F => a * x) = (fun x : F => x * a) := by
        funext x
        exact mul_comm a x
      have hstep : prefixProds (1 : F) (a :: b :: bs)
          = a :: (prefixProds 1 (b :: bs)).map (fun x => x * a) := by
        show (1 * a) :: prefixProds (1 * a) (b :: bs) = _
        rw [one_mul, prefixProds_eq_map (b :: bs) a, hmul]
      have hlen : 1 ≤ ((prefixProds 1 (b :: bs)).map (fun x => x * a)).reverse.length := by
        simp [prefixProds_length]
      rw [hstep, List.reverse_cons (a := a), List.drop_append_of_le_length hlen,
        List.reverse_map, ← List.map_drop, List.append_assoc, List.reverse_cons (a := a),
        mkSvals_append, ← ih has, List.map_append]
      simp

theorem pass2rev_correct (u : List (SWProj F)) :
    ∀ (tmp : F) (extra : List F), tmp * (nnzs u).prod = 1 →
      batchNormPass2Rev u tmp (mkSvals (nnzs u) ++ extra) =
        u.map (fun g => if isNormalized g then g else ⟨g.x, g.y, g.z⁻¹⟩) := by
  induction u with
  | nil => intro tmp extra h; rfl
  | cons g rest ih =>
    intro tmp extra h
    by_cases hg : isNormalized g
    · rw [nnzs_cons, if_pos hg] at h ⊢
      simp [batchNormPass2Rev, hg, ih tmp extra h]
    · have hgf : isNormalized g = false := by simpa using hg
      rw [nnzs_cons, if_neg hg] at h
      have hkey : tmp * (nnzs rest).prod = g.z⁻¹ := by
        apply eq_inv_of_mul_eq_one_left
        calc tmp * (nnzs rest).prod * g.z
            = tmp * (g.z * (nnzs rest).prod) := by ring
          _ = 1 := by simpa using h
      have hinv : (tmp * g.z) * (nnzs rest).prod = 1 := by
        calc (tmp * g.z) * (nnzs rest).prod
            = tmp * (g.z * (nnzs rest).prod) := by ring
          _ = 1 := by simpa using h
      rw [nnzs_cons, if_neg hg, mkSvals]
      simp [batchNormPass2Rev, hgf, hkey, ih (tmp * g.z) extra hinv]

theorem batchNormPass2_full (v : List (SWProj F)) (t : F)
    (h0 : (nnzs v).prod ≠ 0) (ht : t = ((nnzs v).prod)⁻¹) :
    batchNormPass2Rev v.reverse t ((batchNormPass1 v 1).1.reverse.drop 1 ++ [1]) =
      v.reverse.map (fun g => if isNormalized g then g else ⟨g.x, g.y, g.z⁻¹⟩) := by
  have hinv : t * (nnzs v.reverse).prod = 1 := by
    rw [nnzs_reverse, List.prod_reverse, ht]
    exact inv_mul_cancel₀ h0
  rw [batchNormPass1_fst]
  by_cases hl : nnzs v = []
  · have hsv : mkSvals (nnzs v.reverse) ++ [1] =
        (prefixProds 1 (nnzs v)).reverse.drop 1 ++ [1] := by
      rw [nnzs_reverse, hl]
      rfl
    rw [← hsv]
    exact pass2rev_correct v.reverse t [1] hinv
  · rw [prefixProds_reverse_shift (nnzs v) hl, ← nnzs_reverse]
    have h2 := pass2rev_correct v.reverse t [] hinv
    rwa [List.append_nil] at h2

theorem pass2_then_pass3_jac (g : SWProj F) :
    pass3JacStep (if isNormalized g then g else ⟨g.x, g.y, g.z⁻¹⟩) = jacNormalizeStep g := by
  by_cases hg : isNormalized g
  · simp [pass3JacStep, jacNormalizeStep, hg]
  · have hgf : isNormalized g = false := by simpa using hg
    obtain ⟨hz0, hz1⟩ := (isNormalized_false_iff g).mp hgf
    have hni : isNormalized (⟨g.x, g.y, g.z⁻¹⟩ : SWProj F) = false := by
      simp [isNormalized, inv_eq_zero, inv_eq_one, hz0, hz1]
    simp [pass3JacStep, jacNormalizeStep, hgf, hni]

theorem pass2_then_pass3_proj (g : SWProj F) :
    pass3ProjStep (if isNormalized g then g else ⟨g.x, g.y, g.z⁻¹⟩) = projNormalizeStep g := by
  by_cases hg : isNormalized g
  · simp [pass3ProjStep, projNormalizeStep, hg]
  · have hgf : isNormalized g = false := by simpa using hg
    obtain ⟨hz0, hz1⟩ := (isNormalized_false_iff g).mp hgf
    have hni : isNormalized (⟨g.x, g.y, g.z⁻¹⟩ : SWProj F) = false := by
      simp [isNormalized, inv_eq_zero, inv_eq_one, hz0, hz1]
    simp [pass3ProjStep, projNormalizeStep, hgf, hni]

theorem batchNormalizationJac_eq_map (v w : List (SWProj F))
    (h : batchNormalizationJac v = some w) : w = v.map jacNormalizeStep := by
  unfold batchNormalizationJac at h
  split at h
  · simp at h
  · rename_i t heq
    rw [Option.some_inj] at h
    subst h
    obtain ⟨h0, ht⟩ := finv_eq_some.mp heq
    rw [batchNormPass1_snd, one_mul] at h0 ht
    rw [batchNormPass2_full v t h0 ht, List.reverse_map, List.reverse_reverse,
      List.map_map]
    congr 1
    funext g
    exact pass2_then_pass3_jac g

theorem batchNormalizationProj_eq_map (v w : List (SWProj F))
    (h : batchNormalizationProj v = some w) : w = v.map projNormalizeStep := by
  unfold batchNormalizationProj at h
  split at h
  · simp at h
  · rename_i t heq
    rw [Option.some_inj] at h
    subst h
    obtain ⟨h0, ht⟩ := finv_eq_some.mp heq
    rw [batchNormPass1_snd, one_mul] at h0 ht
    rw [batchNormPass2_full v t h0 ht, List.reverse_map, List.reverse_reverse,
      List.map_map]
    congr 1
    funext g
    exact pass2_then_pass3_proj g

theorem jacEq_normalize (g : SWProj F) (hz : g.z ≠ 0) :
    jacEq (jacNormalizeStep g) g = true := by
  by_cases h1 : g.z = 1
  · have hn : isNormalized g = true := by simp [isNormalized, h1]
    rw [jacNormalizeStep, if_pos hn]
    exact jacEq_refl g
  · have hn : isNormalized g = false := (isNormalized_false_iff g).mpr ⟨hz, h1⟩
    rw [jacNormalizeStep, if_neg (by simp [hn])]
    unfold jacEq
    have e1 : g.x * (g.z⁻¹ * g.z⁻¹) * (g.z * g.z) = g.x * (1 * 1) := by
      field_simp
    have e2 : g.y * (g.z⁻¹ * g.z⁻¹ * g.z⁻¹) * (g.z * g.z * g.z) = g.y * (1 * 1 * 1) := by
      field_simp
    simp only [one_ne_zero, if_false, hz, if_neg]
    simp [hz, e1, e2]

theorem projEq_normalize (g : SWProj F) (hz : g.z ≠ 0) :
    projEq (projNormalizeStep g) g = true := by
  by_cases h1 : g.z = 1
  · have hn : isNormalized g = true := by simp [isNormalized, h1]
    rw [projNormalizeStep, if_pos hn]
    exact projEq_refl g
  · have hn : isNormalized g = false := (isNormalized_false_iff g).mpr ⟨hz, h1⟩
    rw [projNormalizeStep, if_neg (by simp [hn])]
    unfold projEq
    have e1 : g.x * g.z⁻¹ * g.z = g.x * 1 := by
      field_simp
    have e2 : g.y * g.z⁻¹ * g.z = g.y * 1 := by
      field_simp
    simp [hz, e1, e2]

theorem jacNormalizeStep_z_eq_zero (g : SWProj F) (h : g.z = 0) :
    jacNormalizeStep g = g := by
  rw [jacNormalizeStep, if_pos]
  simp [isNormalized, h]

theorem projNormalizeStep_z_eq_zero (g : SWProj F) (h : g.z = 0) :
    projNormalizeStep g = g := by
  rw [projNormalizeStep, if_pos]
  simp [isNormalized, h]

theorem jacNormalizeStep_z_ne_zero (g : SWProj F) (h : g.z ≠ 0) :
    (jacNormalizeStep g).z = 1 := by
  rw [jacNormalizeStep]
  by_cases hn : isNormalized g
  · rw [if_pos hn]
    rcases (by simpa [isNormalized] using hn : g.z = 0 ∨ g.z = 1) with h0 | h1
    · exact absurd h0 h
    · exact h1
  · rw [if_neg hn]

theorem projNormalizeStep_z_ne_zero (g : SWProj F) (h : g.z ≠ 0) :
    (projNormalizeStep g).z = 1 := by
  rw [projNormalizeStep]
  by_cases hn : isNormalized g
  · rw [if_pos hn]
    rcases (by simpa [isNormalized] using hn : g.z = 0 ∨ g.z = 1) with h0 | h1
    · exact absurd h0 h
    · exact h1
  · rw [if_neg hn]

/-- C3: if `batch_normalization` succeeds on a slice (it always does, by
`batch_normalization_total`), the output slice has the same length, every
element whose `Z` was zero (the point at infinity) is unchanged, and every
element with nonzero `Z` ends with `Z = 1` and is equal, under the template's
own projective equality (`jacEq` for the Jacobian template, `projEq` for the
projective one), to the point it represented before the call. -/
theorem batch_normalization_correct (F : Type) [Field F] [DecidableEq F]
    (vj wj vp wp : List (SWProj F))
    (hJ : batchNormalizationJac vj = some wj)
    (hP : batchNormalizationProj vp = some wp)
    (i j : ℕ) (gj oj gp op : SWProj F)
    (hgj : vj[i]? = some gj) (hoj : wj[i]? = some oj)
    (hgp : vp[j]? = some gp) (hop : wp[j]? = some op) :
    wj.length = vj.length ∧ wp.length = vp.length ∧
    (gj.z = 0 → oj = gj) ∧
    (gj.z ≠ 0 → oj.z = 1 ∧ jacEq oj gj = true) ∧
    (gp.z = 0 → op = gp) ∧
    (gp.z ≠ 0 → op.z = 1 ∧ projEq op gp = true) := by
  have hwj := batchNormalizationJac_eq_map vj wj hJ
  have hwp := batchNormalizationProj_eq_map vp wp hP
  have hoj2 : oj = jacNormalizeStep gj := by
    rw [hwj, List.getElem?_map, hgj] at hoj
    simpa using hoj.symm
  have hop2 : op = projNormalizeStep gp := by
    rw [hwp, List.getElem?_map, hgp] at hop
    simpa using hop.symm
  subst hoj2
  subst hop2
  refine ⟨by rw [hwj]; simp, by rw [hwp]; simp, ?_, ?_, ?_, ?_⟩
  · exact fun h => jacNormalizeStep_z_eq_zero gj h
  · exact fun h => ⟨jacNormalizeStep_z_ne_zero gj h, jacEq_normalize gj h⟩
  · exact fun h => projNormalizeStep_z_eq_zero gp h
  · exact fun h => ⟨projNormalizeStep_z_ne_zero gp h, projEq_normalize gp h⟩

/-- C3 witness: `batch_normalization_correct` applied to the concrete slice
`[(1,2,0), (4,5,1)]` over the field with 13 elements (for both templates),
at index 1 (a non-zero, already-normalized element) — the hypotheses are
discharged by evaluation. -/
theorem batch_normalization_correct_witness :
    ((⟨4, 5, 1⟩ : SWProj (ZMod 13)).z = 1 ∧
      jacEq (⟨4, 5, 1⟩ : SWProj (ZMod 13)) ⟨4, 5, 1⟩ = true) ∧
    ((⟨4, 5, 1⟩ : SWProj (ZMod 13)).z = 1 ∧
      projEq (⟨4, 5, 1⟩ : SWProj (ZMod 13)) ⟨4, 5, 1⟩ = true) ∧
    (⟨1, 2, 0⟩ : SWProj (ZMod 13)) = ⟨1, 2, 0⟩ :=
  ⟨(batch_normalization_correct (ZMod 13)
      [⟨1, 2, 0⟩, ⟨4, 5, 1⟩] [⟨1, 2, 0⟩, ⟨4, 5, 1⟩]
      [⟨1, 2, 0⟩, ⟨4, 5, 1⟩] [⟨1, 2, 0⟩, ⟨4, 5, 1⟩]
      (by decide) (by decide) 1 1 ⟨4, 5, 1⟩ ⟨4, 5, 1⟩ ⟨4, 5, 1⟩ ⟨4, 5, 1⟩
      (by decide) (by decide) (by decide) (by decide)).2.2.2.1 (by decide),
   (batch_normalization_correct (ZMod 13)
      [⟨1, 2, 0⟩, ⟨4, 5, 1⟩] [⟨1, 2, 0⟩, ⟨4, 5, 1⟩]
      [⟨1, 2, 0⟩, ⟨4, 5, 1⟩] [⟨1, 2, 0⟩, ⟨4, 5, 1⟩]
      (by decide) (by decide) 1 1 ⟨4, 5, 1⟩ ⟨4, 5, 1⟩ ⟨4, 5, 1⟩ ⟨4, 5, 1⟩
      (by decide) (by decide) (by decide) (by decide)).2.2.2.2.2 (by decide),
   (batch_normalization_correct (ZMod 13)
      [⟨1, 2, 0⟩, ⟨4, 5, 1⟩] [⟨1, 2, 0⟩, ⟨4, 5, 1⟩]
      [⟨1, 2, 0⟩, ⟨4, 5, 1⟩] [⟨1, 2, 0⟩, ⟨4, 5, 1⟩]
      (by decide) (by decide) 0 0 ⟨1, 2, 0⟩ ⟨1, 2, 0⟩ ⟨1, 2, 0⟩ ⟨1, 2, 0⟩
      (by decide) (by decide) (by decide) (by decide)).2.2.1 (by decide)⟩

/-- C10: `batch_normalization` never reaches the none-variant of the single
field inversion (the Rust `unwrap` cannot panic): the product of the
`Z`-coordinates accumulated by the first pass over the non-normalized
elements (those with `Z` neither 0 nor 1) is nonzero — elements with `Z = 0`
satisfy `is_normalized` and are skipped by every pass — so both templates'
`batch_normalization` always return a result. -/
theorem batch_normalization_total (F : Type) [Field F] [DecidableEq F]
    (v : List (SWProj F)) :
    (batchNormPass1 v 1).2 ≠ 0 ∧
    (batchNormalizationJac v).isSome = true ∧
    (batchNormalizationProj v).isSome = true := by
  have h0 : (batchNormPass1 v 1).2 ≠ 0 := by
    rw [batchNormPass1_snd, one_mul]
    refine List.prod_ne_zero ?_
    intro hm
    exact mem_nnzs_ne_zero v 0 hm rfl
  refine ⟨h0, ?_, ?_⟩
  · unfold batchNormalizationJac
    rw [show finv (batchNormPass1 v 1).2 = some ((batchNormPass1 v 1).2)⁻¹ from
      finv_eq_some.mpr ⟨h0, rfl⟩]
    rfl
  · unfold batchNormalizationProj
    rw [show finv (batchNormPass1 v 1).2 = some ((batchNormPass1 v 1).2)⁻¹ from
      finv_eq_some.mpr ⟨h0, rfl⟩]
    rfl

/-- C10 witness: `batch_normalization_total` applied to a concrete slice
holding the point at infinity over the field with 13 elements. -/
theorem batch_normalization_total_witness :
    (batchNormalizationJac (F := ZMod 13) [⟨1, 2, 0⟩]).isSome = true ∧
    (batchNormalizationProj (F := ZMod 13) [⟨1, 2, 0⟩]).isSome = true :=
  ⟨(batch_normalization_total (ZMod 13) [⟨1, 2, 0⟩]).2.1,
   (batch_normalization_total (ZMod 13) [⟨1, 2, 0⟩]).2.2⟩

end BatchNormTheorems

section SerializationTheorems

theorem readRowTokens_append (G : Type) (row : List G) (rest : List (PTok G)) :
    readRowTokens row.length (row.map PTok.elem ++ rest) = some (row, rest) := by
  induction row with
  | nil => rfl
  | cons g gs ih => simp [readRowTokens, ih]

theorem readRowsTokens_write (G : Type) (bases : List (List G))
    (h : ∀ row ∈ bases, row.length < 2 ^ 32) :
    readRowsTokens bases.length
        (bases.flatMap fun row => PTok.u32 (row.length % 2 ^ 32) :: row.map PTok.elem) =
      some (bases, []) := by
  induction bases with
  | nil => rfl
  | cons row bs ih =>
    have hrow : row.length % 2 ^ 32 = row.length := Nat.mod_eq_of_lt (h row (by simp))
    have hbs : ∀ r ∈ bs, r.length < 2 ^ 32 := fun r hr => h r (by simp [hr])
    show readRowsTokens (bs.length + 1)
        ((PTok.u32 (row.length % 2 ^ 32) :: row.map PTok.elem) ++
          bs.flatMap fun r => PTok.u32 (r.length % 2 ^ 32) :: r.map PTok.elem) = _
    rw [List.cons_append, hrow]
    simp only [readRowsTokens, readRowTokens_append, ih hbs]

/-- C7 counterexample: the `as u32` cast in the writer truncates the row
count modulo `2^32`, so a parameter value with `2^32` (empty) rows
serializes with a row count of `0` and reads back as the empty parameter
list — not the original value.  The claim's universally quantified
roundtrip therefore fails as stated. -/
theorem pedersen_params_roundtrip_counterexample :
    (readPedersenParams (writePedersenParams
        (List.replicate (2 ^ 32) ([] : List Unit)))).map Prod.fst ≠
      some (List.replicate (2 ^ 32) ([] : List Unit)) := by
  have h1 : (readPedersenParams (writePedersenParams
      (List.replicate (2 ^ 32) ([] : List Unit)))).map Prod.fst =
      some [] := by
    rw [writePedersenParams, List.length_replicate, Nat.mod_self]
    rfl
  rw [h1]
  intro hc
  rw [Option.some_inj] at hc
  have h2 := congrArg List.length hc
  rw [List.length_nil, List.length_replicate] at h2
  exact absurd h2 (by norm_num)

/-- C7 (amended): the writer emits a `u32` row count, then per row a `u32`
row length followed by the row's group elements, and the reader consumes
exactly this format; for every parameter value whose row count and row
lengths are below `2^32` (as any realizable parameter set is), reading back
the written tokens reproduces the original value with nothing left over. -/
theorem pedersen_params_roundtrip_bounded (G : Type) (bases : List (List G))
    (hb : bases.length < 2 ^ 32) (hr : ∀ row ∈ bases, row.length < 2 ^ 32) :
    readPedersenParams (writePedersenParams bases) = some (bases, []) := by
  unfold writePedersenParams readPedersenParams
  rw [Nat.mod_eq_of_lt hb]
  exact readRowsTokens_write G bases hr

/-- C7 witness: the bounded roundtrip applied to a concrete two-row
parameter list. -/
theorem pedersen_params_roundtrip_bounded_witness :
    readPedersenParams (writePedersenParams ([[1, 2], [3]] : List (List ℕ))) =
      some ([[1, 2], [3]], []) :=
  pedersen_params_roundtrip_bounded ℕ [[1, 2], [3]] (by decide) (by decide)

end SerializationTheorems

section CRHGadgetTheorems

theorem listResize_length {α : Type} (l : List α) (n : ℕ) (d : α) :
    (listResize l n d).length = n := by
  simp [listResize]
  omega

theorem padInputAndBitify_ok (numWindows windowSize : ℕ)
    (hdiv : 8 ∣ windowSize * numWindows) (input : List ℕ) :
    padInputAndBitify numWindows windowSize input =
      Except.ok ((listResize input (windowSize * numWindows / 8) 0).flatMap byteToBitsLE) := by
  unfold padInputAndBitify
  rw [if_neg]
  simp [listResize_length, Nat.div_mul_cancel hdiv]

/-- C2: evaluation of the Pedersen CRH gadget at an over-long input.  With
`NUM_WINDOWS = 2`, `WINDOW_SIZE = 4` the capacity is `4 * 2 / 8 = 1` byte,
yet on the 2-byte input `[1, 255]` the gadget returns an output (the hash
of the silently truncated 1-byte input `[1]`) instead of the input-too-long
error the specification demands: `Vec::resize` in `pad_input_and_bitify`
truncates longer inputs, and no length check precedes it. -/
theorem checkEvaluationGadget_truncates_long_input :
    checkEvaluationGadget (G := ℤ) 2 4 [[1, 2, 4, 8], [16, 32, 64, 128]] [1, 255] =
      Except.ok 1 ∧
    checkEvaluationGadget (G := ℤ) 2 4 [[1, 2, 4, 8], [16, 32, 64, 128]] [1, 255] =
      checkEvaluationGadget (G := ℤ) 2 4 [[1, 2, 4, 8], [16, 32, 64, 128]] [1] ∧
    listResize [1, 255] (4 * 2 / 8) 0 = [1] :=
  ⟨by decide, by decide, by decide⟩

/-- C9: the masked Pedersen CRH gadget returns
`SynthesisError::Unsatisfiable` (and no output) whenever the input length
is not exactly twice the mask length; when the lengths are in the 2:1 ratio
(and the parameters are well formed: the base row count matches
`NUM_WINDOWS` and `8` divides `WINDOW_SIZE * NUM_WINDOWS`) it proceeds to
extend the mask and evaluate, producing an output. -/
theorem masked_crh_length_check_spec :
    (∀ (G : Type) [AddCommGroup G] (numWindows windowSize : ℕ)
        (bases maskBases : List (List G)) (input mask : List ℕ),
        input.length ≠ mask.length * 2 →
        checkEvaluationGadgetMasked numWindows windowSize bases maskBases input mask =
          Except.error GadgetError.unsatisfiable) ∧
    (∀ (G : Type) [AddCommGroup G] (numWindows windowSize : ℕ)
        (bases maskBases : List (List G)) (input mask : List ℕ),
        input.length = mask.length * 2 → bases.length = numWindows →
        8 ∣ windowSize * numWindows →
        (checkEvaluationGadgetMasked numWindows windowSize bases maskBases input mask).isOk
          = true) := by
  constructor
  · intro G _ numWindows windowSize bases maskBases input mask h
    unfold checkEvaluationGadgetMasked
    rw [if_pos h]
  · intro G _ numWindows windowSize bases maskBases input mask h hb hdiv
    subst hb
    unfold checkEvaluationGadgetMasked checkEvaluationGadget
    simp [h, padInputAndBitify_ok _ _ hdiv, Except.isOk, Except.toBool]

/-- C9 witness: the length check applied to a 3-byte input with a 1-byte
mask (rejected with the unsatisfiable error) and to a 2-byte input with a
1-byte mask (evaluated to an output), over the integers. -/
theorem masked_crh_length_check_spec_witness :
    checkEvaluationGadgetMasked (G := ℤ) 2 4 [[1, 2, 4, 8], [16, 32, 64, 128]]
        [[1, 1, 1, 1], [1, 1, 1, 1]] [1, 2, 3] [1] =
      Except.error GadgetError.unsatisfiable ∧
    (checkEvaluationGadgetMasked (G := ℤ) 2 4 [[1, 2, 4, 8], [16, 32, 64, 128]]
        [[1, 1, 1, 1], [1, 1, 1, 1]] [9, 7] [3]).isOk = true :=
  ⟨masked_crh_length_check_spec.1 ℤ 2 4 [[1, 2, 4, 8], [16, 32, 64, 128]]
      [[1, 1, 1, 1], [1, 1, 1, 1]] [1, 2, 3] [1] (by decide),
   masked_crh_length_check_spec.2 ℤ 2 4 [[1, 2, 4, 8], [16, 32, 64, 128]]
      [[1, 1, 1, 1], [1, 1, 1, 1]] [9, 7] [3] (by decide) (by decide) (by decide)⟩

end CRHGadgetTheorems

section FiatShamirTheorems

theorem toBitsBE_length (s x : ℕ) : (toBitsBE s x).length = s := by
  simp [toBitsBE]

theorem sum_map_const_nat {α : Type} (l : List α) (c : ℕ) :
    (l.map fun _ => c).sum = l.length * c := by
  induction l with
  | nil => simp
  | cons a t ih =>
    simp [ih, Nat.succ_mul]
    omega

/-- C8: `get_booleans_from_sponge` squeezes exactly
`ceil(num_bits / (size_in_bits - 1))` native elements (the cursor advances by
`k` with `k * (size_in_bits - 1)` the least multiple reaching `num_bits`),
and the returned bits are, per squeezed element, its big-endian bit
decomposition with exactly the highest bit discarded — `size_in_bits - 1`
bits per element, at least `num_bits` in total.  The non-native squeeze
(`get_gadgets_and_bits_from_sponge`) requests `n * 128` bits in short mode
and `n * (nonnative_size_in_bits - 1)` bits otherwise. -/
theorem get_booleans_from_sponge_spec (sizeInBits : ℕ) (str : ℕ → ℕ)
    (cursor numBits k : ℕ) (h : 2 ≤ sizeInBits)
    (hk : (getBooleansFromSponge sizeInBits str cursor numBits).2 = cursor + k) :
    (getBooleansFromSponge sizeInBits str cursor numBits).1 =
      ((spongeSqueeze str cursor k).1).flatMap
        (fun e => (toBitsBE sizeInBits e).drop 1) ∧
    (∀ e : ℕ, ((toBitsBE sizeInBits e).drop 1).length = sizeInBits - 1) ∧
    (getBooleansFromSponge sizeInBits str cursor numBits).1.length =
      k * (sizeInBits - 1) ∧
    numBits ≤ k * (sizeInBits - 1) ∧
    (0 < k → (k - 1) * (sizeInBits - 1) < numBits) ∧
    (∀ (nnSizeInBits n : ℕ) (short : Bool),
      (getGadgetsAndBitsFromSponge sizeInBits nnSizeInBits str cursor n short).2 =
        (getBooleansFromSponge sizeInBits str cursor
          ((if short then 128 else nnSizeInBits - 1) * n)).2) := by
  have hkval : k = (numBits + (sizeInBits - 1) - 1) / (sizeInBits - 1) := by
    have : cursor + (numBits + (sizeInBits - 1) - 1) / (sizeInBits - 1) = cursor + k := hk
    omega
  subst hkval
  set b := sizeInBits - 1 with hb
  have hb1 : 1 ≤ b := by omega
  set q := (numBits + b - 1) / b with hq
  have hlen : (getBooleansFromSponge sizeInBits str cursor numBits).1.length = q * b := by
    show (((List.range q).map fun i => str (cursor + i)).flatMap
        (fun e => (toBitsBE sizeInBits e).drop 1)).length = q * b
    rw [List.length_flatMap, List.map_map]
    have hcg : ((List.range q).map
        ((List.length ∘ fun e => List.drop 1 (toBitsBE sizeInBits e)) ∘
          fun i => str (cursor + i))) =
        (List.range q).map fun _ => b := by
      apply List.map_congr_left
      intro i _
      simp [Function.comp, toBitsBE, hb]
    rw [hcg, sum_map_const_nat, List.length_range]
  have hdm := Nat.div_add_mod (numBits + b - 1) b
  have hmod : (numBits + b - 1) % b < b := Nat.mod_lt _ (by omega)
  have hle : numBits ≤ q * b := by
    have he : b * q + (numBits + b - 1) % b = numBits + b - 1 := hdm
    have hqb : q * b = b * q := Nat.mul_comm q b
    generalize hm : b * q = m at he hqb
    omega
  have hmin : 0 < q → (q - 1) * b < numBits := by
    intro hq0
    have he : b * q + (numBits + b - 1) % b = numBits + b - 1 := hdm
    have hsub : (q - 1) * b = q * b - 1 * b := Nat.sub_mul q 1 b
    have hqb : q * b = b * q := Nat.mul_comm q b
    have hbq : b ≤ b * q := Nat.le_mul_of_pos_right b hq0
    generalize hm : b * q = m at he hqb hbq
    omega
  refine ⟨rfl, ?_, hlen, hle, hmin, ?_⟩
  · intro e
    simp [toBitsBE]
  · intro nnSizeInBits n short
    show (getBooleansFromSponge sizeInBits str cursor
        ((if short then 128 else nnSizeInBits - 1) * n)).2 = _
    rfl

/-- C8 witness: the bit-extraction shape at `size_in_bits = 3`
(`bits_per_element = 2`), `num_bits = 5`, where exactly `k = 3` elements are
squeezed, and the non-native squeeze count in full mode with
`nonnative_size_in_bits = 4`, `n = 2`. -/
theorem get_booleans_from_sponge_spec_witness :
    (getBooleansFromSponge 3 (fun i => i) 0 5).1 =
      ((spongeSqueeze (fun i => i) 0 3).1).flatMap
        (fun e => (toBitsBE 3 e).drop 1) ∧
    ((toBitsBE 3 6).drop 1).length = 3 - 1 ∧
    (getBooleansFromSponge 3 (fun i => i) 0 5).1.length = 3 * (3 - 1) ∧
    5 ≤ 3 * (3 - 1) ∧
    (3 - 1) * (3 - 1) < 5 ∧
    (getGadgetsAndBitsFromSponge 3 4 (fun i => i) 0 2 false).2 =
      (getBooleansFromSponge 3 (fun i => i) 0 ((if false then 128 else 4 - 1) * 2)).2 := by
  have h := get_booleans_from_sponge_spec 3 (fun i => i) 0 5 3 (by decide) (by decide)
  exact ⟨h.1, h.2.1 6, h.2.2.1, h.2.2.2.1, h.2.2.2.2.1 (by decide) ,
    h.2.2.2.2.2 4 2 false⟩

end FiatShamirTheorems

end SnarkVM
